import Mathlib

/-!
Verification of the FireO model serialization and identity engine
(`fireo/models/model.py` and `fireo/utils/utils.py`).

Python values appearing in documents are modelled by the inductive type
`Value` (null, integers, strings, dicts, lists).  Python strings that are
manipulated structurally (keys, parents, ids) are modelled as `List Char`,
so that `split`/`join` become ordinary list functions.  Python dicts are
modelled as insertion-ordered association lists with overwrite-in-place
semantics, matching CPython dict behaviour.
-/

set_option autoImplicit false

namespace FireO

/-- A Python string, as its list of characters. -/
abbrev Str := List Char

/-- A Python runtime value as it appears in model attributes and documents:
`none` is Python `None`; `dict` keeps insertion order. -/
inductive Value where
  | none
  | int (n : Int)
  | str (s : Str)
  | dict (entries : List (String × Value))
  | list (items : List Value)

/-- `v is None` check. -/
def Value.isNone : Value → Bool
  | .none => true
  | _ => false

/-- `isinstance(v, dict)` check. -/
def Value.isDict : Value → Bool
  | .dict _ => true
  | _ => false

/-- `isinstance(v, list)` check. -/
def Value.isList : Value → Bool
  | .list _ => true
  | _ => false

/-- Python truthiness of a value (`if v:`). -/
def Value.truthy : Value → Bool
  | .none => false
  | .int n => n != 0
  | .str s => !s.isEmpty
  | .dict es => !es.isEmpty
  | .list vs => !vs.isEmpty

/-! ## Python string utilities over `Str` -/

/-- `s.split('/')`: splits on every `'/'`, always returning a non-empty list;
`"".split('/') == [""]`, `"/a".split('/') == ["", "a"]`. -/
def splitSlash : Str → List Str
  | [] => [[]]
  | c :: rest =>
    let r := splitSlash rest
    if c = '/' then [] :: r
    else
      match r with
      | h :: t => (c :: h) :: t
      | [] => [[c]]

/-- `'/'.join(segments)`. -/
def joinSlash : List Str → Str
  | [] => []
  | [s] => s
  | s :: rest => s ++ '/' :: joinSlash rest

/-- `l[-1]` on the non-empty result of a split. -/
def lastSeg (l : List Str) : Str :=
  (l.getLast?).getD []

/-- Does `hay` start with `needle`? (helper for the Python substring test). -/
def strStartsWith : Str → Str → Bool
  | _, [] => true
  | [], _ :: _ => false
  | c :: cs, d :: ds => c == d && strStartsWith cs ds

/-- Python substring test `needle in hay`. -/
def strContains (hay needle : Str) : Bool :=
  if strStartsWith hay needle then true
  else
    match hay with
    | [] => false
    | _ :: rest => strContains rest needle

/-- The placeholder id token `'@temp_doc_id'`. -/
def tempDocId : Str := "@temp_doc_id".data

/-- `utils.get_id(key)`: last `/`-delimited segment; `None` input gives `None`
(the `AttributeError` catch). -/
def get_id : Option Str → Option Str
  | Option.none => Option.none
  | some k => some (lastSeg (splitSlash k))

/-- `utils.get_parent_doc(key)`: `'/'.join(key.split('/')[:-2])`. -/
def get_parent_doc (key : Str) : Str :=
  joinSlash ((splitSlash key).dropLast.dropLast)

/-! ## `utils.remove_none_field` -/

mutual

/-- `utils.remove_none_field(values)`: recursively strips `None`-valued keys
from dicts, maps over lists, and returns any other value unchanged. -/
def remove_none_field : Value → Value
  | .list vs => .list (removeNoneList vs)
  | .dict kvs => .dict (removeNoneDict kvs)
  | v => v

/-- The list branch of `remove_none_field`: `[remove_none_field(v) for v in values]`. -/
def removeNoneList : List Value → List Value
  | [] => []
  | v :: vs => remove_none_field v :: removeNoneList vs

/-- The dict branch of `remove_none_field`: keeps non-`None` entries, recursing
into dict and list values only. -/
def removeNoneDict : List (String × Value) → List (String × Value)
  | [] => []
  | (k, v) :: kvs =>
    if v.isNone then removeNoneDict kvs
    else (k, if v.isDict || v.isList then remove_none_field v else v) :: removeNoneDict kvs

end

mutual

/-- Does a value contain, at any depth, a dict entry whose value is `None`? -/
def hasNoneEntry : Value → Bool
  | .list vs => hasNoneList vs
  | .dict kvs => hasNoneDict kvs
  | _ => false

/-- `hasNoneEntry` over a list of values. -/
def hasNoneList : List Value → Bool
  | [] => false
  | v :: vs => hasNoneEntry v || hasNoneList vs

/-- `hasNoneEntry` over dict entries. -/
def hasNoneDict : List (String × Value) → Bool
  | [] => false
  | (_, v) :: kvs => v.isNone || hasNoneEntry v || hasNoneDict kvs

end

/-! ## Python dicts as insertion-ordered association lists -/

/-- `k in d` for a Python dict. -/
def hasKey (d : List (String × Value)) (k : String) : Bool :=
  d.any (fun kv => kv.1 == k)

/-- `d[k] = v` on a Python dict: overwrite in place if the key exists,
otherwise append at the end (CPython insertion-order semantics). -/
def dictSet (d : List (String × Value)) (k : String) (v : Value) : List (String × Value) :=
  if hasKey d k then d.map (fun kv => if kv.1 == k then (k, v) else kv)
  else d ++ [(k, v)]

/-- `d.get(k)` on a Python dict. -/
def dictLookup (d : List (String × Value)) (k : String) : Option Value :=
  match d.find? (fun kv => kv.1 == k) with
  | some kv => some kv.2
  | Option.none => Option.none

/-! ## The model data type

Field descriptors and the meta registry are external collaborators
(`fireo.fields`, `fireo.models.model_meta`); they are represented through
the narrow capability interface the model code consumes: a storage column
name, the `get_value` / `field_value` conversion functions, and a map-kind
tag (`isinstance(f, fields.MapField)`). -/

/-- One declared field's descriptor, as seen through the external field
capability: `get_value` may fail with a field-validation error (modelled as
`Except String`), `field_value` converts a storage value back to a model
value (the owner-instance argument of the Python signature is not consulted
by the model core and is elided). -/
structure FieldDesc where
  name : String
  dbColumnName : String
  getValue : Value → Bool → Bool → Bool → Except String Value
  fieldValue : Value → Value
  isMap : Bool

/-- The `_meta` registry capability: the ordered field list, the optional
designated id field `(name, one-argument get_value)`, and the
`ignore_none_field` switch. -/
structure Meta where
  fieldList : List FieldDesc
  idField : Option (String × (Value → Option Str))
  ignoreNoneField : Bool

/-- A model instance's mutable state: attribute slots, the changed-fields
log `_field_changed`, the fixed key `_key`, `parent`, `collection_name`,
and the update-doc key `_update_doc`. -/
structure ModelState where
  meta : Meta
  attrs : List (String × Value)
  fieldChanged : List String
  key? : Option Str
  parent : Str
  collectionName : Str
  updateDoc : Option Str

/-- `getattr(self, name)` for attribute slots.  Modelled from the spec: an
attribute never assigned reads as null (class-level defaults such as
`id = None`; declared field slots hold the current value once assigned). -/
def getattr (s : ModelState) (name : String) : Value :=
  (dictLookup s.attrs name).getD Value.none

/-- `Model.__setattr__`: appends the name to `_field_changed` when it is a
declared field (`key in self._meta.field_list`), then stores the value. -/
def setattrTracked (s : ModelState) (key : String) (value : Value) : ModelState :=
  let s1 :=
    if key ∈ s.meta.fieldList.map (fun f => f.name) then
      { s with fieldChanged := s.fieldChanged ++ [key] }
    else s
  { s1 with attrs := dictSet s1.attrs key value }

/-- `Model._set_orig_attr`: stores the value bypassing change tracking. -/
def setOrigAttr (s : ModelState) (key : String) (value : Value) : ModelState :=
  { s with attrs := dictSet s.attrs key value }

/-- Modelled from the spec: the meta registry lookup
`field by storage column name -> descriptor | null`, implemented outside
these sources in the model metaclass (`_meta.get_field_by_column_name`). -/
def getFieldByColumnName (m : Meta) (col : String) : Option FieldDesc :=
  m.fieldList.find? (fun f => f.dbColumnName == col)

/-- The attribute name the id is stored under: the designated id field's
name when one is declared, else the bare `'id'`. -/
def idAttrName (m : Meta) : String :=
  match m.idField with
  | some p => p.1
  | Option.none => "id"

/-- The `_id` property getter: `None` when no id field is declared,
otherwise the id descriptor's `get_value` applied to the stored attribute. -/
def modelId (s : ModelState) : Option Str :=
  match s.meta.idField with
  | Option.none => Option.none
  | some p => p.2 (getattr s p.1)

/-- The `if p[0] == '/': p = p[1:]` normalization shared by `key` and
`_set_key` (on the empty string Python would raise; both call sites join at
least two separators so the input is never empty). -/
def stripLeadingSlash (k : Str) : Str :=
  match k with
  | c :: rest => if c = '/' then rest else k
  | [] => k

/-- `Model._set_key(doc_id)`: fixes `_key` to the normalized join
`parent/collection_name/doc_id`. -/
def setKey (s : ModelState) (docId : Str) : ModelState :=
  { s with key? := some (stripLeadingSlash (joinSlash [s.parent, s.collectionName, docId])) }

/-- The `_id` property setter: stores the doc id under the id attribute name
(through tracked `setattr`), and when the doc id is truthy also fixes the
key via `_set_key`. -/
def setId (s : ModelState) (docId : Option Str) : ModelState :=
  let s1 := setattrTracked s (idAttrName s.meta)
    (match docId with | some d => Value.str d | Option.none => Value.none)
  match docId with
  | some d => if d.isEmpty then s1 else setKey s1 d
  | Option.none => s1

/-- The `key` property: the fixed `_key` when truthy; otherwise the join of
`parent`, `collection_name` and `_id`, with the placeholder substituted when
`_id` is `None` (the `TypeError` catch), normalized by the leading-slash
strip. -/
def modelKey (s : ModelState) : Str :=
  let computed :=
    stripLeadingSlash
      (match modelId s with
       | some i => joinSlash [s.parent, s.collectionName, i]
       | Option.none => joinSlash [s.parent, s.collectionName, tempDocId])
  match s.key? with
  | some k => if k.isEmpty then computed else k
  | Option.none => computed

/-- The error raised by `to_db_dict` around a failing field coercion
(`ModelSerializingWrappedError`): the offending field path and the
originating cause. -/
structure SerializeError where
  path : List String
  cause : String

/-- The field loop of `Model.to_db_dict` over a suffix of the field list,
carrying the result dict built so far: skips unchanged fields under
`changed_only`, wraps a failing `get_value` into a `SerializeError`, and
stores the coerced value under the storage column name unless it is null
and `ignore_none_field` is set. -/
def toDbDictFrom (s : ModelState) (igR igD chO : Bool) :
    List FieldDesc → List (String × Value) → Except SerializeError (List (String × Value))
  | [], acc => .ok acc
  | f :: fs, acc =>
    if chO = true ∧ f.name ∉ s.fieldChanged then
      toDbDictFrom s igR igD chO fs acc
    else
      match f.getValue (getattr s f.name) igR igD chO with
      | .error e => .error ⟨[f.name], e⟩
      | .ok v =>
        if v.isNone = false ∨ s.meta.ignoreNoneField = false then
          toDbDictFrom s igR igD chO fs (dictSet acc f.dbColumnName v)
        else
          toDbDictFrom s igR igD chO fs acc

/-- `Model.to_db_dict(ignore_required, ignore_default, changed_only)`. -/
def to_db_dict (s : ModelState) (igR igD chO : Bool) :
    Except SerializeError (List (String × Value)) :=
  toDbDictFrom s igR igD chO s.meta.fieldList []

/-- `Model.to_dict()`: the storage dict plus the resolved id (under the id
field's name, or `'id'`) and the full key string. -/
def to_dict (s : ModelState) : Except SerializeError (List (String × Value)) :=
  match to_db_dict s false false false with
  | .error e => .error e
  | .ok d =>
    let withId := dictSet d (idAttrName s.meta)
      (match get_id (some (modelKey s)) with
       | some i => Value.str i
       | Option.none => Value.none)
    .ok (dictSet withId "key" (Value.str (modelKey s)))

/-- The entry loop of `Model.populate_from_doc_dict`: looks up each storage
key by column name, silently skips unknown keys, and writes the converted
value through the non-tracking `_set_orig_attr`. -/
def populateFrom : List (String × Value) → ModelState → ModelState
  | [], s => s
  | (k, v) :: rest, s =>
    match getFieldByColumnName s.meta k with
    | Option.none => populateFrom rest s
    | some f => populateFrom rest (setOrigAttr s f.name (f.fieldValue v))

/-- `Model.populate_from_doc_dict(doc_dict)`. -/
def populate_from_doc_dict (s : ModelState) (doc : List (String × Value)) : ModelState :=
  populateFrom doc s

/-- The field loop of `Model._get_fields`, carrying the name-value dict
built so far. -/
def getFieldsFrom (s : ModelState) (chO : Bool) :
    List FieldDesc → List (String × Value) → List (String × Value)
  | [], acc => acc
  | f :: fs, acc =>
    let v := getattr s f.name
    if chO = false ∨ f.name ∈ s.fieldChanged ∨ (f.isMap = true ∧ v.isNone = false) then
      getFieldsFrom s chO fs (dictSet acc f.name v)
    else
      getFieldsFrom s chO fs acc

/-- `Model._get_fields(changed_only)`: every field's name and live value,
filtered under `changed_only` by membership in `_field_changed` with the
always-include exception for non-null map fields. -/
def getFields (s : ModelState) (chO : Bool) : List (String × Value) :=
  getFieldsFrom s chO s.meta.fieldList []

/-- Modelled from the spec: the external `IDField` descriptor created inside
`Model.update` (`fields.IDField()`); its one-argument `get_value` returns
the stored string id, or `None` when unset. -/
def idFieldGetValue : Value → Option Str
  | .str s => some s
  | _ => Option.none

/-- The `updated_fields` computed at the end of `Model.update`: all fields
from `_get_fields()` whose name is in `_field_changed`. -/
def updatedFields (s : ModelState) : List (String × Value) :=
  (getFields s false).filter (fun kv => decide (kv.1 ∈ s.fieldChanged))

/-- What `Model.update` hands to the persistence manager: the (possibly
mutated) instance state and the changed-field dict passed to `_update`. -/
structure UpdateOutcome where
  state : ModelState
  forwarded : List (String × Value)

/-- `Model.update(key)` up to the external `collection._update` call:
accepts a truthy explicit key into `_update_doc`; when `_update_doc` is set
and placeholder-free, derives `parent` and the id from it (adding a default
id field when none is declared but a bare id is set); when `_update_doc` is
unset and the instance key still contains the placeholder, raises
`InvalidKey`; otherwise forwards the changed fields. -/
def update (s : ModelState) (key? : Option Str) : Except String UpdateOutcome :=
  let s0 :=
    match key? with
    | some k => if k.isEmpty then s else { s with updateDoc := some k }
    | Option.none => s
  match s0.updateDoc with
  | some ud =>
    if strContains ud tempDocId then
      .ok ⟨s0, updatedFields s0⟩
    else
      let s1 := { s0 with parent := get_parent_doc ud }
      let s2 := setId s1 (get_id (some ud))
      let s3 :=
        if (modelId s2).isNone && (getattr s2 "id").truthy then
          { s2 with meta := { s2.meta with idField := some ("id", idFieldGetValue) } }
        else s2
      .ok ⟨s3, updatedFields s3⟩
  | Option.none =>
    if strContains (modelKey s0) tempDocId then
      .error "InvalidKey"
    else
      .ok ⟨s0, updatedFields s0⟩

/-- The update-doc key effectively in force inside `update`: the explicit
key argument when truthy, else the previously stored `_update_doc`. -/
def effUpdateDoc (s : ModelState) (key? : Option Str) : Option Str :=
  match key? with
  | some k => if k.isEmpty then s.updateDoc else some k
  | Option.none => s.updateDoc

/-- Is an `Except` result an error? -/
def isErr {ε α : Type} : Except ε α → Bool
  | .error _ => true
  | .ok _ => false

/-! ## Dict lemmas -/

theorem dictLookup_map_overwrite (d : List (String × Value)) (k : String) (v : Value)
    (h : hasKey d k = true) :
    dictLookup (d.map (fun kv => if kv.1 == k then (k, v) else kv)) k = some v := by
  induction d with
  | nil => simp [hasKey] at h
  | cons kv rest ih =>
    by_cases hk : kv.1 = k
    · simp [dictLookup, hk]
    · have hk' : (kv.1 == k) = false := by simp [hk]
      have h' : hasKey rest k = true := by
        simpa [hasKey, hk'] using h
      simpa [dictLookup, hk', List.find?] using ih h'

theorem dictLookup_append_fresh (d : List (String × Value)) (k : String) (v : Value)
    (h : hasKey d k = false) :
    dictLookup (d ++ [(k, v)]) k = some v := by
  induction d with
  | nil => simp [dictLookup]
  | cons kv rest ih =>
    have hk : (kv.1 == k) = false := by
      by_contra hc
      simp only [Bool.not_eq_false] at hc
      simp [hasKey, hc] at h
    have h' : hasKey rest k = false := by
      simpa [hasKey, hk] using h
    simpa [dictLookup, hk, List.find?] using ih h'

theorem dictLookup_dictSet_self (d : List (String × Value)) (k : String) (v : Value) :
    dictLookup (dictSet d k v) k = some v := by
  by_cases h : hasKey d k = true
  · simp only [dictSet, h, if_true]
    exact dictLookup_map_overwrite d k v h
  · have h' : hasKey d k = false := by simpa using h
    simp only [dictSet, h', Bool.false_eq_true, if_false]
    exact dictLookup_append_fresh d k v h'

theorem dictLookup_map_ne (d : List (String × Value)) (k k' : String) (v : Value)
    (h : k' ≠ k) :
    dictLookup (d.map (fun kv => if kv.1 == k then (k, v) else kv)) k' = dictLookup d k' := by
  induction d with
  | nil => rfl
  | cons kv rest ih =>
    by_cases hk : kv.1 = k
    · have h1 : (k == k') = false := by simp [Ne.symm h]
      have h2 : (kv.1 == k') = false := by simp [hk, Ne.symm h]
      simpa [dictLookup, hk, h1, h2, List.find?] using ih
    · have hk' : (kv.1 == k) = false := by simp [hk]
      by_cases he : kv.1 = k'
      · have he' : (kv.1 == k') = true := by simp [he]
        simp [dictLookup, List.find?, hk', he']
      · have he' : (kv.1 == k') = false := by simp [he]
        simpa [dictLookup, hk', he', List.find?] using ih

theorem dictLookup_append_ne (d : List (String × Value)) (k k' : String) (v : Value)
    (h : k' ≠ k) (hd : dictLookup d k' = Option.none) :
    dictLookup (d ++ [(k, v)]) k' = dictLookup d k' := by
  induction d with
  | nil =>
    have h1 : (k == k') = false := by simp [Ne.symm h]
    simp [dictLookup, h1, List.find?]
  | cons kv rest ih =>
    by_cases he : kv.1 = k'
    · simp [dictLookup, he, List.find?] at hd
    · have he' : (kv.1 == k') = false := by simp [he]
      have hd' : dictLookup rest k' = Option.none := by
        simpa [dictLookup, he', List.find?] using hd
      simpa [dictLookup, he', List.find?] using ih hd'

theorem dictLookup_append_of_found (d l : List (String × Value)) (k' : String) (w : Value)
    (hd : dictLookup d k' = some w) : dictLookup (d ++ l) k' = some w := by
  induction d with
  | nil => simp [dictLookup] at hd
  | cons kv rest ih =>
    by_cases he : kv.1 = k'
    · have he' : (kv.1 == k') = true := by simp [he]
      simp [dictLookup, List.find?, he'] at hd ⊢
      exact hd
    · have he' : (kv.1 == k') = false := by simp [he]
      have hd' : dictLookup rest k' = some w := by
        simpa [dictLookup, he', List.find?] using hd
      simpa [dictLookup, he', List.find?] using ih hd'

theorem dictLookup_dictSet_ne (d : List (String × Value)) (k k' : String) (v : Value)
    (h : k' ≠ k) :
    dictLookup (dictSet d k v) k' = dictLookup d k' := by
  by_cases hh : hasKey d k = true
  · simp only [dictSet, hh, if_true]
    exact dictLookup_map_ne d k k' v h
  · have hh' : hasKey d k = false := by simpa using hh
    simp only [dictSet, hh', Bool.false_eq_true, if_false]
    cases hd : dictLookup d k' with
    | none => exact (dictLookup_append_ne d k k' v h hd).trans hd
    | some w => exact dictLookup_append_of_found d [(k, v)] k' w hd

/-! ## Attribute and hydration lemmas -/

theorem getattr_setOrigAttr_self (s : ModelState) (k n : String) :
    getattr (setOrigAttr s k (getattr s k)) n = getattr s n := by
  by_cases h : n = k
  · subst h
    simp [getattr, setOrigAttr, dictLookup_dictSet_self]
  · simp [getattr, setOrigAttr, dictLookup_dictSet_ne s.attrs k n _ h]

theorem getattr_setOrigAttr_ne (s : ModelState) (k n : String) (v : Value) (h : n ≠ k) :
    getattr (setOrigAttr s k v) n = getattr s n := by
  simp [getattr, setOrigAttr, dictLookup_dictSet_ne s.attrs k n v h]

theorem getattr_setattrTracked_self (s : ModelState) (k : String) (v : Value) :
    getattr (setattrTracked s k v) k = v := by
  unfold setattrTracked
  by_cases h : k ∈ s.meta.fieldList.map (fun f => f.name) <;>
    simp [h, getattr, dictLookup_dictSet_self]

theorem setattrTracked_fieldChanged (s : ModelState) (k : String) (v : Value) :
    (setattrTracked s k v).fieldChanged =
      if k ∈ s.meta.fieldList.map (fun f => f.name) then s.fieldChanged ++ [k]
      else s.fieldChanged := by
  unfold setattrTracked
  by_cases h : k ∈ s.meta.fieldList.map (fun f => f.name) <;> simp [h]

theorem populateFrom_meta (doc : List (String × Value)) :
    ∀ s : ModelState, (populateFrom doc s).meta = s.meta := by
  induction doc with
  | nil => intro s; rfl
  | cons kv rest ih =>
    intro s
    unfold populateFrom
    cases h : getFieldByColumnName s.meta kv.1 with
    | none => exact ih s
    | some f => exact ih (setOrigAttr s f.name (f.fieldValue kv.2))

theorem populateFrom_fieldChanged (doc : List (String × Value)) :
    ∀ s : ModelState, (populateFrom doc s).fieldChanged = s.fieldChanged := by
  induction doc with
  | nil => intro s; rfl
  | cons kv rest ih =>
    intro s
    unfold populateFrom
    cases h : getFieldByColumnName s.meta kv.1 with
    | none => exact ih s
    | some f => exact ih (setOrigAttr s f.name (f.fieldValue kv.2))

/-- Hydrating from a document each of whose matched entries converts back to
the value the instance already holds leaves every attribute read unchanged. -/
theorem populateFrom_getattr (doc : List (String × Value)) :
    ∀ s : ModelState,
      (∀ kv ∈ doc, ∀ f, getFieldByColumnName s.meta kv.1 = some f →
        f.fieldValue kv.2 = getattr s f.name) →
      ∀ n, getattr (populateFrom doc s) n = getattr s n := by
  induction doc with
  | nil => intro s _ n; rfl
  | cons kv rest ih =>
    intro s hdoc n
    unfold populateFrom
    cases h : getFieldByColumnName s.meta kv.1 with
    | none =>
      exact ih s (fun kv' hkv' => hdoc kv' (List.mem_cons_of_mem kv hkv')) n
    | some f =>
      have hv : f.fieldValue kv.2 = getattr s f.name :=
        hdoc kv (List.mem_cons_self kv rest) f h
      set s1 := setOrigAttr s f.name (f.fieldValue kv.2) with hs1
      have hattr : ∀ m, getattr s1 m = getattr s m := by
        intro m
        rw [hs1, hv]
        exact getattr_setOrigAttr_self s f.name m
      have hmeta : s1.meta = s.meta := rfl
      have hrest : ∀ kv' ∈ rest, ∀ g, getFieldByColumnName s1.meta kv'.1 = some g →
          g.fieldValue kv'.2 = getattr s1 g.name := by
        intro kv' hkv' g hg
        rw [hattr]
        exact hdoc kv' (List.mem_cons_of_mem kv hkv') g (hmeta ▸ hg)
      exact (ih s1 hrest n).trans (hattr n)

/-! ## Serializer lemmas -/

theorem dictSet_fresh (d : List (String × Value)) (k : String) (v : Value)
    (h : hasKey d k = false) : dictSet d k v = d ++ [(k, v)] := by
  simp [dictSet, h]

theorem hasKey_append (d l : List (String × Value)) (k : String) :
    hasKey (d ++ l) k = (hasKey d k || hasKey l k) := by
  simp [hasKey, List.any_append]

/-- `to_db_dict` reads the instance only through `getattr`, `_field_changed`
and `_meta`; two states agreeing there serialize identically. -/
theorem toDbDictFrom_congr (s1 s2 : ModelState) (igR igD chO : Bool)
    (hm : s1.meta = s2.meta) (hc : s1.fieldChanged = s2.fieldChanged)
    (ha : ∀ n, getattr s1 n = getattr s2 n) :
    ∀ (fs : List FieldDesc) (acc : List (String × Value)),
      toDbDictFrom s1 igR igD chO fs acc = toDbDictFrom s2 igR igD chO fs acc := by
  intro fs
  induction fs with
  | nil => intro acc; rfl
  | cons f fs ih =>
    intro acc
    unfold toDbDictFrom
    rw [hc, ha f.name, hm]
    split
    · exact ih acc
    · split
      · rfl
      · split
        · exact ih _
        · exact ih acc

/-- A failing `to_db_dict` names exactly the offending field and carries its
own error as cause. -/
theorem toDbDictFrom_error (s : ModelState) (igR igD chO : Bool) :
    ∀ (fs : List FieldDesc) (acc : List (String × Value)) (e : SerializeError),
      toDbDictFrom s igR igD chO fs acc = .error e →
      ∃ f, f ∈ fs ∧ e.path = [f.name] ∧
        f.getValue (getattr s f.name) igR igD chO = .error e.cause := by
  intro fs
  induction fs with
  | nil => intro acc e h; simp [toDbDictFrom] at h
  | cons f fs ih =>
    intro acc e h
    unfold toDbDictFrom at h
    by_cases h1 : chO = true ∧ f.name ∉ s.fieldChanged
    · rw [if_pos h1] at h
      obtain ⟨g, hg, hp, hv⟩ := ih acc e h
      exact ⟨g, List.mem_cons_of_mem f hg, hp, hv⟩
    · rw [if_neg h1] at h
      cases hv : f.getValue (getattr s f.name) igR igD chO with
      | error c =>
        rw [hv] at h
        cases h
        exact ⟨f, List.mem_cons_self f fs, rfl, hv⟩
      | ok v =>
        rw [hv] at h
        dsimp only at h
        by_cases h2 : v.isNone = false ∨ s.meta.ignoreNoneField = false
        · rw [if_pos h2] at h
          obtain ⟨g, hg, hp, hc2⟩ := ih _ e h
          exact ⟨g, List.mem_cons_of_mem f hg, hp, hc2⟩
        · rw [if_neg h2] at h
          obtain ⟨g, hg, hp, hc2⟩ := ih acc e h
          exact ⟨g, List.mem_cons_of_mem f hg, hp, hc2⟩

/-- With every coercion succeeding and no null omission, `to_db_dict` (with
default flags) is the column-name/value image of the field list, appended to
the accumulator. -/
theorem toDbDictFrom_all (s : ModelState) (w : FieldDesc → Value) :
    ∀ (fs : List FieldDesc) (acc : List (String × Value)),
      (∀ f ∈ fs, f.getValue (getattr s f.name) false false false = .ok (w f)) →
      (∀ f ∈ fs, (w f).isNone = false ∨ s.meta.ignoreNoneField = false) →
      (∀ f ∈ fs, hasKey acc f.dbColumnName = false) →
      (fs.map (fun f => f.dbColumnName)).Nodup →
      toDbDictFrom s false false false fs acc =
        .ok (acc ++ fs.map (fun f => (f.dbColumnName, w f))) := by
  intro fs
  induction fs with
  | nil => intro acc _ _ _ _; simp [toDbDictFrom]
  | cons f fs ih =>
    intro acc hok hnn hfresh hnodup
    unfold toDbDictFrom
    rw [hok f (List.mem_cons_self f fs)]
    dsimp only
    rw [if_neg (by simp)]
    rw [if_pos (hnn f (List.mem_cons_self f fs))]
    rw [dictSet_fresh acc f.dbColumnName (w f) (hfresh f (List.mem_cons_self f fs))]
    rw [List.map_cons] at hnodup
    have hnodup' : (fs.map (fun f => f.dbColumnName)).Nodup := (List.nodup_cons.mp hnodup).2
    have hnotmem := (List.nodup_cons.mp hnodup).1
    have hfresh' : ∀ g ∈ fs, hasKey (acc ++ [(f.dbColumnName, w f)]) g.dbColumnName = false := by
      intro g hg
      have h1 : hasKey acc g.dbColumnName = false := hfresh g (List.mem_cons_of_mem f hg)
      have h2 : f.dbColumnName ≠ g.dbColumnName := by
        intro hcol
        exact hnotmem (hcol ▸ List.mem_map_of_mem (fun f => f.dbColumnName) hg)
      rw [hasKey_append, h1]
      simp [hasKey, h2]
    rw [ih (acc ++ [(f.dbColumnName, w f)])
      (fun g hg => hok g (List.mem_cons_of_mem f hg))
      (fun g hg => hnn g (List.mem_cons_of_mem f hg)) hfresh' hnodup']
    simp

/-- Under `changed_only=True`, `to_db_dict` is exactly the image of the
fields whose names are in the changed log (and whose coerced value survives
the null filter) — there is no map-field exception here. -/
theorem toDbDictFrom_changed (s : ModelState) (igR igD : Bool) (w : FieldDesc → Value) :
    ∀ (fs : List FieldDesc) (acc : List (String × Value)),
      (∀ f ∈ fs, f.name ∈ s.fieldChanged →
        f.getValue (getattr s f.name) igR igD true = .ok (w f)) →
      (∀ f ∈ fs, hasKey acc f.dbColumnName = false) →
      (fs.map (fun f => f.dbColumnName)).Nodup →
      toDbDictFrom s igR igD true fs acc =
        .ok (acc ++ ((fs.filter (fun f => decide (f.name ∈ s.fieldChanged) &&
            (!(w f).isNone || !s.meta.ignoreNoneField))).map
          (fun f => (f.dbColumnName, w f)))) := by
  intro fs
  induction fs with
  | nil => intro acc _ _ _; simp [toDbDictFrom]
  | cons f fs ih =>
    intro acc hok hfresh hnodup
    rw [List.map_cons] at hnodup
    have hnodup' : (fs.map (fun f => f.dbColumnName)).Nodup := (List.nodup_cons.mp hnodup).2
    have hnotmem := (List.nodup_cons.mp hnodup).1
    unfold toDbDictFrom
    by_cases hmem : f.name ∈ s.fieldChanged
    · rw [if_neg (by simp [hmem])]
      rw [hok f (List.mem_cons_self f fs) hmem]
      dsimp only
      have hdec : decide (f.name ∈ s.fieldChanged) = true := by simp [hmem]
      cases hb : (!(w f).isNone || !s.meta.ignoreNoneField) with
      | true =>
        have hprop : (w f).isNone = false ∨ s.meta.ignoreNoneField = false := by
          rcases Bool.or_eq_true_iff.mp hb with h | h
          · exact Or.inl (by simpa using h)
          · exact Or.inr (by simpa using h)
        rw [if_pos hprop]
        rw [dictSet_fresh acc f.dbColumnName (w f) (hfresh f (List.mem_cons_self f fs))]
        have hfresh' : ∀ g ∈ fs, hasKey (acc ++ [(f.dbColumnName, w f)]) g.dbColumnName = false := by
          intro g hg
          have h1 : hasKey acc g.dbColumnName = false := hfresh g (List.mem_cons_of_mem f hg)
          have h2 : f.dbColumnName ≠ g.dbColumnName := by
            intro hcol
            exact hnotmem (hcol ▸ List.mem_map_of_mem (fun f => f.dbColumnName) hg)
          rw [hasKey_append, h1]
          simp [hasKey, h2]
        rw [ih (acc ++ [(f.dbColumnName, w f)])
          (fun g hg hgc => hok g (List.mem_cons_of_mem f hg) hgc) hfresh' hnodup']
        rw [List.filter_cons_of_pos (by rw [hdec, hb]; rfl)]
        simp
      | false =>
        have hprop : ¬ ((w f).isNone = false ∨ s.meta.ignoreNoneField = false) := by
          rcases Bool.or_eq_false_iff.mp hb with ⟨h1, h2⟩
          push_neg
          exact ⟨by simpa using h1, by simpa using h2⟩
        rw [if_neg hprop]
        rw [ih acc (fun g hg hgc => hok g (List.mem_cons_of_mem f hg) hgc)
          (fun g hg => hfresh g (List.mem_cons_of_mem f hg)) hnodup']
        rw [List.filter_cons_of_neg (by rw [hdec, hb]; simp)]
    · rw [if_pos ⟨rfl, hmem⟩]
      rw [ih acc (fun g hg hgc => hok g (List.mem_cons_of_mem f hg) hgc)
        (fun g hg => hfresh g (List.mem_cons_of_mem f hg)) hnodup']
      rw [List.filter_cons_of_neg (by simp [hmem])]

/-- Under `changed_only=True`, `_get_fields` keeps exactly the fields whose
names are in the changed log plus the non-null map-kind fields. -/
theorem getFieldsFrom_changed (s : ModelState) :
    ∀ (fs : List FieldDesc) (acc : List (String × Value)),
      (∀ f ∈ fs, hasKey acc f.name = false) →
      (fs.map (fun f => f.name)).Nodup →
      getFieldsFrom s true fs acc =
        acc ++ ((fs.filter (fun f => decide (f.name ∈ s.fieldChanged) ||
            (f.isMap && !(getattr s f.name).isNone))).map
          (fun f => (f.name, getattr s f.name))) := by
  intro fs
  induction fs with
  | nil => intro acc _ _; simp [getFieldsFrom]
  | cons f fs ih =>
    intro acc hfresh hnodup
    rw [List.map_cons] at hnodup
    have hnodup' : (fs.map (fun f => f.name)).Nodup := (List.nodup_cons.mp hnodup).2
    have hnotmem := (List.nodup_cons.mp hnodup).1
    unfold getFieldsFrom
    cases hb : (decide (f.name ∈ s.fieldChanged) ||
        (f.isMap && !(getattr s f.name).isNone)) with
    | true =>
      have hprop : true = false ∨ f.name ∈ s.fieldChanged ∨
          (f.isMap = true ∧ (getattr s f.name).isNone = false) := by
        rcases Bool.or_eq_true_iff.mp hb with h | h
        · exact Or.inr (Or.inl (of_decide_eq_true h))
        · rcases Bool.and_eq_true_iff.mp h with ⟨h1, h2⟩
          exact Or.inr (Or.inr ⟨h1, by simpa using h2⟩)
      rw [if_pos hprop]
      rw [dictSet_fresh acc f.name (getattr s f.name) (hfresh f (List.mem_cons_self f fs))]
      have hfresh' : ∀ g ∈ fs, hasKey (acc ++ [(f.name, getattr s f.name)]) g.name = false := by
        intro g hg
        have h1 : hasKey acc g.name = false := hfresh g (List.mem_cons_of_mem f hg)
        have h2 : f.name ≠ g.name := by
          intro hn
          exact hnotmem (hn ▸ List.mem_map_of_mem (fun f => f.name) hg)
        rw [hasKey_append, h1]
        simp [hasKey, h2]
      rw [ih (acc ++ [(f.name, getattr s f.name)]) hfresh' hnodup']
      rw [List.filter_cons_of_pos (by rw [hb])]
      simp
    | false =>
      have hprop : ¬ (true = false ∨ f.name ∈ s.fieldChanged ∨
          (f.isMap = true ∧ (getattr s f.name).isNone = false)) := by
        rcases Bool.or_eq_false_iff.mp hb with ⟨h1, h2⟩
        push_neg
        refine ⟨by simp, of_decide_eq_false h1, ?_⟩
        intro hmap
        rcases Bool.and_eq_false_iff.mp h2 with h | h
        · exact absurd hmap (by simpa using h)
        · simpa using h
      rw [if_neg hprop]
      rw [ih acc (fun g hg => hfresh g (List.mem_cons_of_mem f hg)) hnodup']
      rw [List.filter_cons_of_neg (by rw [hb]; simp)]

/-! ## Key-string lemmas -/

theorem splitSlash_ne_nil (s : Str) : splitSlash s ≠ [] := by
  cases s with
  | nil => simp [splitSlash]
  | cons c rest =>
    unfold splitSlash
    by_cases h : c = '/'
    · simp [h]
    · simp only [h, if_false]
      cases splitSlash rest <;> simp

theorem splitSlash_cons_slash (rest : Str) :
    splitSlash ('/' :: rest) = [] :: splitSlash rest := by
  simp [splitSlash]

theorem splitSlash_cons_ne (c : Char) (rest : Str) (h : ¬ c = '/') :
    splitSlash (c :: rest) =
      match splitSlash rest with
      | h' :: t => (c :: h') :: t
      | [] => [[c]] := by
  simp [splitSlash, h]

theorem splitSlash_append (xs ys : Str) :
    splitSlash (xs ++ '/' :: ys) = splitSlash xs ++ splitSlash ys := by
  induction xs with
  | nil =>
    rw [List.nil_append, splitSlash_cons_slash]
    rfl
  | cons c xs ih =>
    by_cases h : c = '/'
    · subst h
      rw [List.cons_append, splitSlash_cons_slash, splitSlash_cons_slash, ih, List.cons_append]
    · rw [List.cons_append, splitSlash_cons_ne c _ h, splitSlash_cons_ne c _ h, ih]
      cases hx : splitSlash xs with
      | nil => exact absurd hx (splitSlash_ne_nil xs)
      | cons h' t' => simp [hx]

theorem lastSeg_append (l1 l2 : List Str) (h : l2 ≠ []) :
    lastSeg (l1 ++ l2) = lastSeg l2 := by
  unfold lastSeg
  rw [List.getLast?_append_of_ne_nil _ h]

theorem get_id_of_suffix (zs : Str) (t : Str) (ht : splitSlash t = [t]) :
    get_id (some (zs ++ '/' :: t)) = some t := by
  simp only [get_id, splitSlash_append, ht]
  rw [lastSeg_append _ _ (by simp)]
  rfl

theorem splitSlash_tempDocId : splitSlash tempDocId = [tempDocId] := by decide

theorem strStartsWith_refl (s : Str) : strStartsWith s s = true := by
  induction s with
  | nil => rfl
  | cons c cs ih => simp [strStartsWith, ih]

theorem strContains_suffix (zs needle : Str) : strContains (zs ++ needle) needle = true := by
  induction zs with
  | nil =>
    show strContains needle needle = true
    unfold strContains
    rw [strStartsWith_refl]
    simp
  | cons z zs ih =>
    show strContains (z :: (zs ++ needle)) needle = true
    unfold strContains
    cases h : strStartsWith (z :: (zs ++ needle)) needle with
    | true => simp
    | false => simpa [h] using ih

/-- When the key is not fixed and the id is unresolved, the computed key is
some prefix followed by `/` and the placeholder token. -/
theorem modelKey_placeholder_shape (s : ModelState)
    (hk : s.key? = Option.none) (hid : modelId s = Option.none) :
    ∃ zs, modelKey s = zs ++ '/' :: tempDocId := by
  unfold modelKey
  rw [hk, hid]
  have hjoin : joinSlash [s.parent, s.collectionName, tempDocId] =
      s.parent ++ '/' :: (s.collectionName ++ '/' :: tempDocId) := by
    simp [joinSlash]
  rw [hjoin]
  cases hp : s.parent with
  | nil =>
    refine ⟨s.collectionName, ?_⟩
    simp [stripLeadingSlash]
  | cons c0 p' =>
    by_cases hc : c0 = '/'
    · refine ⟨p' ++ '/' :: s.collectionName, ?_⟩
      simp [stripLeadingSlash, hc]
    · refine ⟨(c0 :: p') ++ '/' :: s.collectionName, ?_⟩
      simp [stripLeadingSlash, hc]

theorem find?_col_self (fs : List FieldDesc) (g : FieldDesc)
    (hnodup : (fs.map (fun f => f.dbColumnName)).Nodup) (hg : g ∈ fs) :
    fs.find? (fun f => f.dbColumnName == g.dbColumnName) = some g := by
  induction fs with
  | nil => simp at hg
  | cons f fs ih =>
    rw [List.map_cons] at hnodup
    have hnotmem := (List.nodup_cons.mp hnodup).1
    have hnodup' := (List.nodup_cons.mp hnodup).2
    rcases List.mem_cons.mp hg with rfl | hg'
    · simp [List.find?]
    · have hne : (f.dbColumnName == g.dbColumnName) = false := by
        by_contra h
        simp only [Bool.not_eq_false, beq_iff_eq] at h
        exact hnotmem (h ▸ List.mem_map_of_mem (fun f => f.dbColumnName) hg')
      simp [List.find?, hne, ih hnodup' hg']

/-! ## `remove_none_field` lemmas -/

theorem remove_none_field_scalar (v : Value) (h1 : v.isDict = false) (h2 : v.isList = false) :
    remove_none_field v = v := by
  cases v with
  | none => rfl
  | int n => rfl
  | str s => rfl
  | dict kvs => simp [Value.isDict] at h1
  | list vs => simp [Value.isList] at h2

theorem removeNoneList_eq_map (vs : List Value) :
    removeNoneList vs = vs.map remove_none_field := by
  induction vs with
  | nil => rfl
  | cons v rest ih => simp [removeNoneList, ih]

theorem removeNoneDict_eq_filter_map (kvs : List (String × Value)) :
    removeNoneDict kvs =
      (kvs.filter (fun kv => !kv.2.isNone)).map (fun kv => (kv.1, remove_none_field kv.2)) := by
  induction kvs with
  | nil => rfl
  | cons kv rest ih =>
    obtain ⟨k, v⟩ := kv
    by_cases hn : v.isNone = true
    · simp [removeNoneDict, hn, ih]
    · have hn' : v.isNone = false := by simpa using hn
      by_cases hd : (v.isDict || v.isList) = true
      · simp [removeNoneDict, hn', hd, ih]
      · have h1 : v.isDict = false := by
          rcases Bool.or_eq_false_iff.mp (by simpa using hd) with ⟨a, _⟩
          exact a
        have h2 : v.isList = false := by
          rcases Bool.or_eq_false_iff.mp (by simpa using hd) with ⟨_, b⟩
          exact b
        simp [removeNoneDict, hn', h1, h2, ih, remove_none_field_scalar v h1 h2]

theorem removeNone_noNone_aux :
    ∀ n : Nat,
      (∀ v : Value, sizeOf v ≤ n → hasNoneEntry (remove_none_field v) = false) ∧
      (∀ vs : List Value, sizeOf vs ≤ n → hasNoneList (removeNoneList vs) = false) ∧
      (∀ kvs : List (String × Value), sizeOf kvs ≤ n →
        hasNoneDict (removeNoneDict kvs) = false) := by
  intro n
  induction n using Nat.strong_induction_on with
  | _ n ih =>
    refine ⟨?_, ?_, ?_⟩
    · intro v hv
      cases v with
      | none => simp [remove_none_field, hasNoneEntry]
      | int m => simp [remove_none_field, hasNoneEntry]
      | str s => simp [remove_none_field, hasNoneEntry]
      | list vs =>
        have h1 : sizeOf (Value.list vs) = 1 + sizeOf vs := by simp
        rw [h1] at hv
        have hlt : sizeOf vs < n := by omega
        have := (ih (sizeOf vs) hlt).2.1 vs le_rfl
        simpa [remove_none_field, hasNoneEntry] using this
      | dict kvs =>
        have h1 : sizeOf (Value.dict kvs) = 1 + sizeOf kvs := by simp
        rw [h1] at hv
        have hlt : sizeOf kvs < n := by omega
        have := (ih (sizeOf kvs) hlt).2.2 kvs le_rfl
        simpa [remove_none_field, hasNoneEntry] using this
    · intro vs hvs
      cases vs with
      | nil => simp [removeNoneList, hasNoneList]
      | cons v rest =>
        have h1 : sizeOf (v :: rest) = 1 + sizeOf v + sizeOf rest := by simp
        rw [h1] at hvs
        have hv : sizeOf v < n := by omega
        have hr : sizeOf rest < n := by omega
        have e1 := (ih (sizeOf v) hv).1 v le_rfl
        have e2 := (ih (sizeOf rest) hr).2.1 rest le_rfl
        simp [removeNoneList, hasNoneList, e1, e2]
    · intro kvs hkvs
      cases kvs with
      | nil => simp [removeNoneDict, hasNoneDict]
      | cons kv rest =>
        obtain ⟨k, v⟩ := kv
        have hv : sizeOf v < n := by
          have hs : sizeOf v < sizeOf ((k, v) :: rest) := by
            simp only [List.cons.sizeOf_spec, Prod.mk.sizeOf_spec]
            omega
          omega
        have hr : sizeOf rest < n := by
          have hs : sizeOf rest < sizeOf ((k, v) :: rest) := by
            simp only [List.cons.sizeOf_spec, Prod.mk.sizeOf_spec]
            omega
          omega
        have e2 := (ih (sizeOf rest) hr).2.2 rest le_rfl
        by_cases hn : v.isNone = true
        · simp [removeNoneDict, hn, e2]
        · have hn' : v.isNone = false := by simpa using hn
          have e1 := (ih (sizeOf v) hv).1 v le_rfl
          by_cases hd : (v.isDict || v.isList) = true
          · have hnn : (remove_none_field v).isNone = false := by
              cases v <;> simp_all [Value.isDict, Value.isList, remove_none_field, Value.isNone]
            simp [removeNoneDict, hasNoneDict, hn', hd, e1, e2, hnn]
          · have hd' : (v.isDict || v.isList) = false := by simpa using hd
            have hne : hasNoneEntry v = false := by
              cases v <;> simp_all [hasNoneEntry, Value.isDict, Value.isList]
            simp [removeNoneDict, hasNoneDict, hn', hd', hne, e2]

/-! ## Concrete fixtures for examples and witnesses -/

/-- A pass-through scalar field used in concrete examples. -/
def plainField (nm col : String) : FieldDesc :=
  { name := nm, dbColumnName := col,
    getValue := fun v _ _ _ => .ok v,
    fieldValue := fun v => v,
    isMap := false }

/-- A pass-through map-kind field used in concrete examples. -/
def mapField (nm col : String) : FieldDesc :=
  { name := nm, dbColumnName := col,
    getValue := fun v _ _ _ => .ok v,
    fieldValue := fun v => v,
    isMap := true }

/-- A field whose coercion always fails, used in concrete examples. -/
def failingField (nm col : String) : FieldDesc :=
  { name := nm, dbColumnName := col,
    getValue := fun _ _ _ _ => .error "required field is missing",
    fieldValue := fun v => v,
    isMap := false }

/-- A baseline root-collection instance used in concrete examples. -/
def mkState (m : Meta) (attrs : List (String × Value)) (changed : List String) : ModelState :=
  { meta := m, attrs := attrs, fieldChanged := changed,
    key? := Option.none, parent := [], collectionName := "user".data,
    updateDoc := Option.none }

/-! ## The claims -/

/-- C9 (confirmed): `remove_none_field` removes every null-valued dict key at
any nesting depth (no null entry survives anywhere in the result), preserves
non-null structure (the dict branch keeps non-null entries in order and
recurses into their values, the list branch maps over elements), and on the
cited example `{"a":1,"b":None,"c":{"d":None,"e":2}}` it returns
`{"a":1,"c":{"e":2}}`. -/
theorem C9_remove_none_field_spec :
    (∀ v : Value, hasNoneEntry (remove_none_field v) = false) ∧
    (∀ kvs : List (String × Value),
      remove_none_field (Value.dict kvs) =
        Value.dict ((kvs.filter (fun kv => !kv.2.isNone)).map
          (fun kv => (kv.1, remove_none_field kv.2)))) ∧
    (∀ vs : List Value,
      remove_none_field (Value.list vs) = Value.list (vs.map remove_none_field)) ∧
    remove_none_field (Value.dict [("a", Value.int 1), ("b", Value.none),
        ("c", Value.dict [("d", Value.none), ("e", Value.int 2)])]) =
      Value.dict [("a", Value.int 1), ("c", Value.dict [("e", Value.int 2)])] := by
  refine ⟨?_, ?_, ?_, ?_⟩
  · intro v
    exact (removeNone_noNone_aux (sizeOf v)).1 v le_rfl
  · intro kvs
    simp [remove_none_field, removeNoneDict_eq_filter_map]
  · intro vs
    simp [remove_none_field, removeNoneList_eq_map]
  · rfl

/-- C8 (confirmed): every assignment through `__setattr__` appends exactly
the assigned name to the changed-fields log when the name is a declared
field — regardless of the value assigned — and appends nothing for any
other (private/internal or undeclared) attribute name. -/
theorem C8_setattr_tracking (s : ModelState) (k : String) (v : Value) :
    (setattrTracked s k v).fieldChanged =
      if k ∈ s.meta.fieldList.map (fun f => f.name) then s.fieldChanged ++ [k]
      else s.fieldChanged :=
  setattrTracked_fieldChanged s k v

def c5meta : Meta :=
  { fieldList := [plainField "x" "x"], idField := Option.none, ignoreNoneField := true }

def c5state : ModelState := mkState c5meta [("x", Value.int 5)] ["x"]

/-- C5 counterexample: a field assigned before hydration (`"x"` in the
changed log) is still recorded in the log after `populate_from_doc_dict`
completes — hydration does not clear earlier assignments as the claim
states. -/
theorem C5_counterexample :
    c5state.fieldChanged = ["x"] ∧
    (populate_from_doc_dict c5state [("x", Value.int 7)]).fieldChanged = ["x"] :=
  ⟨rfl, rfl⟩

/-- C5 (corrected): hydration appends nothing to the changed-fields log, but
it does not clear it either — `populate_from_doc_dict` leaves
`_field_changed` exactly unchanged, so assignments made before hydration
remain recorded. -/
theorem C5_hydration_preserves_log (s : ModelState) (doc : List (String × Value)) :
    (populate_from_doc_dict s doc).fieldChanged = s.fieldChanged :=
  populateFrom_fieldChanged doc s

/-- C7 (confirmed): when `to_db_dict` fails, the raised serialization error
carries a path of exactly one field name — that of a field of this model
whose own coercion raised — and the original exception as its cause; no
other field's failure is merged into it. -/
theorem C7_serialize_error_path (s : ModelState) (igR igD chO : Bool) (e : SerializeError)
    (h : to_db_dict s igR igD chO = .error e) :
    e.path.length = 1 ∧
      ∃ f, f ∈ s.meta.fieldList ∧ e.path = [f.name] ∧
        f.getValue (getattr s f.name) igR igD chO = .error e.cause := by
  obtain ⟨f, hf, hp, hcause⟩ := toDbDictFrom_error s igR igD chO s.meta.fieldList [] e h
  exact ⟨by rw [hp]; rfl, f, hf, hp, hcause⟩

def c7meta : Meta :=
  { fieldList := [plainField "a" "a", failingField "b" "b"],
    idField := Option.none, ignoreNoneField := true }

def c7state : ModelState := mkState c7meta [("a", Value.int 1)] []

theorem C7_witness :
    (⟨["b"], "required field is missing"⟩ : SerializeError).path.length = 1 ∧
      ∃ f, f ∈ c7state.meta.fieldList ∧
        (⟨["b"], "required field is missing"⟩ : SerializeError).path = [f.name] ∧
        f.getValue (getattr c7state f.name) false false false =
          .error (⟨["b"], "required field is missing"⟩ : SerializeError).cause :=
  C7_serialize_error_path c7state false false false ⟨["b"], "required field is missing"⟩ rfl

def c2meta : Meta :=
  { fieldList := [mapField "m" "m"], idField := Option.none, ignoreNoneField := true }

def c2state : ModelState := mkState c2meta [("m", Value.dict [("k", Value.int 1)])] []

/-- C2 counterexample: a never-assigned map-kind field holding a non-null
value is excluded from `to_db_dict(changed_only=True)` even though the
claim says it is always included; the always-include exception exists only
in `_get_fields`. -/
theorem C2_counterexample :
    to_db_dict c2state false false true = .ok [] ∧
    getFields c2state true = [("m", Value.dict [("k", Value.int 1)])] ∧
    (getattr c2state "m").isNone = false ∧
    c2state.fieldChanged = [] :=
  ⟨rfl, rfl, rfl, rfl⟩

/-- C2 (corrected): under `changed_only=True`, `to_db_dict` includes exactly
the fields whose names are in the changed log (further subject to the
null-omission rule), with no map-kind exception; the always-include rule
for non-null map-kind fields applies to `_get_fields(changed_only=True)`
instead. -/
theorem C2_changed_only_filter (s : ModelState) (igR igD : Bool) (w : FieldDesc → Value)
    (hnodupC : (s.meta.fieldList.map (fun f => f.dbColumnName)).Nodup)
    (hnodupN : (s.meta.fieldList.map (fun f => f.name)).Nodup)
    (hok : ∀ f ∈ s.meta.fieldList, f.name ∈ s.fieldChanged →
      f.getValue (getattr s f.name) igR igD true = .ok (w f)) :
    to_db_dict s igR igD true =
      .ok ((s.meta.fieldList.filter (fun f => decide (f.name ∈ s.fieldChanged) &&
          (!(w f).isNone || !s.meta.ignoreNoneField))).map
        (fun f => (f.dbColumnName, w f))) ∧
    getFields s true =
      (s.meta.fieldList.filter (fun f => decide (f.name ∈ s.fieldChanged) ||
          (f.isMap && !(getattr s f.name).isNone))).map
        (fun f => (f.name, getattr s f.name)) := by
  constructor
  · have h := toDbDictFrom_changed s igR igD w s.meta.fieldList []
      hok (fun f _ => rfl) hnodupC
    simpa [to_db_dict] using h
  · have h := getFieldsFrom_changed s s.meta.fieldList [] (fun f _ => rfl) hnodupN
    simpa [getFields] using h

def c2wmeta : Meta :=
  { fieldList := [plainField "x" "x", mapField "m" "m"],
    idField := Option.none, ignoreNoneField := true }

def c2wstate : ModelState :=
  mkState c2wmeta [("x", Value.int 5), ("m", Value.dict [("k", Value.int 1)])] ["x"]

theorem C2_witness :
    to_db_dict c2wstate false false true =
      .ok ((c2wstate.meta.fieldList.filter
          (fun f => decide (f.name ∈ c2wstate.fieldChanged) &&
            (!((fun _ : FieldDesc => Value.int 5) f).isNone ||
              !c2wstate.meta.ignoreNoneField))).map
        (fun f => (f.dbColumnName, (fun _ : FieldDesc => Value.int 5) f))) ∧
    getFields c2wstate true =
      (c2wstate.meta.fieldList.filter
          (fun f => decide (f.name ∈ c2wstate.fieldChanged) ||
            (f.isMap && !(getattr c2wstate f.name).isNone))).map
        (fun f => (f.name, getattr c2wstate f.name)) :=
  C2_changed_only_filter c2wstate false false (fun _ => Value.int 5)
    (by decide) (by decide)
    (by
      intro f hf hc
      rcases List.mem_cons.mp hf with rfl | hf'
      · rfl
      · rcases List.mem_singleton.mp hf' with rfl
        simp [mapField, c2wstate, mkState] at hc)

theorem setattrTracked_parent (s : ModelState) (k : String) (v : Value) :
    (setattrTracked s k v).parent = s.parent := by
  unfold setattrTracked
  split <;> rfl

theorem setattrTracked_collectionName (s : ModelState) (k : String) (v : Value) :
    (setattrTracked s k v).collectionName = s.collectionName := by
  unfold setattrTracked
  split <;> rfl

def c4stateA : ModelState :=
  mkState { fieldList := [], idField := Option.none, ignoreNoneField := true } [] []

def c4stateB : ModelState :=
  { meta := { fieldList := [], idField := some ("uid", idFieldGetValue), ignoreNoneField := true },
    attrs := [("uid", Value.str "u1".data)], fieldChanged := [],
    key? := Option.none, parent := "org/acme".data, collectionName := "user".data,
    updateDoc := Option.none }

/-- C4 (confirmed): with no fixed key, `key` is the `/`-join of parent,
collection name and id with the empty parent segment elided and the
placeholder substituted when the id is unresolved; for well-formed parent
and collection segments (neither beginning with `/`, non-empty collection)
the result never starts with a separator.  In particular
`parent=""`, `collection="user"`, unresolved id gives
`"user/@temp_doc_id"`, and `parent="org/acme"`, `collection="user"`,
`id="u1"` gives `"org/acme/user/u1"`. -/
theorem C4_key_join (s : ModelState) (hk : s.key? = Option.none)
    (hp : s.parent.head? ≠ some '/')
    (hc0 : s.collectionName ≠ [])
    (hc : s.collectionName.head? ≠ some '/') :
    (modelKey s =
      (if s.parent = [] then [] else s.parent ++ ['/']) ++
        s.collectionName ++ '/' ::
          (match modelId s with | some i => i | Option.none => tempDocId)) ∧
    (∀ r, modelKey s ≠ '/' :: r) ∧
    modelKey c4stateA = "user/@temp_doc_id".data ∧
    modelKey c4stateB = "org/acme/user/u1".data := by
  have hbase : (match modelId s with
      | some i => joinSlash [s.parent, s.collectionName, i]
      | Option.none => joinSlash [s.parent, s.collectionName, tempDocId]) =
      s.parent ++ '/' :: (s.collectionName ++ '/' ::
        (match modelId s with | some i => i | Option.none => tempDocId)) := by
    cases modelId s <;> simp [joinSlash]
  have hkey : modelKey s = stripLeadingSlash (s.parent ++ '/' :: (s.collectionName ++ '/' ::
      (match modelId s with | some i => i | Option.none => tempDocId))) := by
    unfold modelKey
    rw [hk]
    dsimp only
    rw [hbase]
  have hmain : modelKey s =
      (if s.parent = [] then [] else s.parent ++ ['/']) ++
        s.collectionName ++ '/' ::
          (match modelId s with | some i => i | Option.none => tempDocId) := by
    rw [hkey]
    cases hpp : s.parent with
    | nil => simp [stripLeadingSlash]
    | cons c0 p' =>
      have hc0' : ¬ c0 = '/' := by
        intro h
        rw [hpp] at hp
        simp [h] at hp
      simp [stripLeadingSlash, hc0', List.append_assoc]
  refine ⟨hmain, ?_, by decide, by decide⟩
  intro r heq
  rw [hmain] at heq
  cases hpp : s.parent with
  | nil =>
    rw [hpp] at heq
    cases hcc : s.collectionName with
    | nil => exact hc0 hcc
    | cons c1 cs =>
      rw [hcc] at heq
      simp at heq
      rw [hcc] at hc
      simp [heq.1] at hc
  | cons c0 p' =>
    rw [hpp] at heq
    simp at heq
    rw [hpp] at hp
    simp [heq.1] at hp

theorem C4_witness :
    (modelKey c4stateB =
      (if c4stateB.parent = [] then [] else c4stateB.parent ++ ['/']) ++
        c4stateB.collectionName ++ '/' ::
          (match modelId c4stateB with | some i => i | Option.none => tempDocId)) ∧
    (∀ r, modelKey c4stateB ≠ '/' :: r) ∧
    modelKey c4stateA = "user/@temp_doc_id".data ∧
    modelKey c4stateB = "org/acme/user/u1".data :=
  C4_key_join c4stateB rfl (by decide) (by decide) (by decide)

def c3state : ModelState :=
  mkState { fieldList := [], idField := Option.none, ignoreNoneField := true }
    [("id", Value.str "u1".data)] []

/-- C3 counterexample: with no designated id field declared and the bare
`id` attribute holding `"u1"`, the `_id` getter returns `None` — it does
not fall back to reading the bare `id` attribute as the claim states. -/
theorem C3_counterexample :
    modelId c3state = Option.none ∧
    getattr c3state "id" = Value.str "u1".data ∧
    (Option.none : Option Str) ≠ some "u1".data :=
  ⟨rfl, rfl, by simp⟩

/-- C3 (corrected): the `_id` getter reads through the designated id field
descriptor when one is declared and returns null otherwise — it does not
fall back to the bare `id` attribute (only the setter has that fallback);
the setter writes through the id descriptor's name or the bare `id` name,
and setting a non-empty id immediately fixes the key to the normalized
`parent/collection/id`. -/
theorem C3_id_resolution (s : ModelState) (d : Str) (hd : d ≠ []) :
    (s.meta.idField = Option.none → modelId s = Option.none) ∧
    (∀ nm f, s.meta.idField = some (nm, f) → modelId s = f (getattr s nm)) ∧
    getattr (setId s (some d)) (idAttrName s.meta) = Value.str d ∧
    (setId s (some d)).key? =
      some (stripLeadingSlash (joinSlash [s.parent, s.collectionName, d])) := by
  have hne : d.isEmpty = false := by
    cases d with
    | nil => exact absurd rfl hd
    | cons a l => rfl
  refine ⟨?_, ?_, ?_, ?_⟩
  · intro h
    simp [modelId, h]
  · intro nm f h
    simp [modelId, h]
  · unfold setId
    simp only [hne, Bool.false_eq_true, if_false]
    exact getattr_setattrTracked_self s (idAttrName s.meta) (Value.str d)
  · unfold setId
    simp only [hne, Bool.false_eq_true, if_false]
    unfold setKey
    rw [setattrTracked_parent, setattrTracked_collectionName]

def c3wstate : ModelState :=
  mkState { fieldList := [], idField := Option.none, ignoreNoneField := true } [] []

theorem C3_witness :
    (c3wstate.meta.idField = Option.none → modelId c3wstate = Option.none) ∧
    (∀ nm f, c3wstate.meta.idField = some (nm, f) → modelId c3wstate = f (getattr c3wstate nm)) ∧
    getattr (setId c3wstate (some "u1".data)) (idAttrName c3wstate.meta) =
      Value.str "u1".data ∧
    (setId c3wstate (some "u1".data)).key? =
      some (stripLeadingSlash
        (joinSlash [c3wstate.parent, c3wstate.collectionName, "u1".data])) :=
  C3_id_resolution c3wstate "u1".data (by decide)

def c10state : ModelState :=
  mkState { fieldList := [], idField := Option.none, ignoreNoneField := true } [] []

/-- C10 (confirmed): for an instance with no fixed key and unresolved id,
`to_dict` (whenever serialization succeeds) stores literally the
placeholder string under the id entry and the placeholder-bearing key
under `'key'` — the placeholder token, not null, leaks into the public
dictionary. -/
theorem C10_to_dict_placeholder (s : ModelState) (d : List (String × Value))
    (hk : s.key? = Option.none) (hid : modelId s = Option.none)
    (hname : idAttrName s.meta ≠ "key")
    (hdb : to_db_dict s false false false = .ok d) :
    ∃ out, to_dict s = .ok out ∧
      dictLookup out (idAttrName s.meta) = some (Value.str tempDocId) ∧
      dictLookup out "key" = some (Value.str (modelKey s)) ∧
      strContains (modelKey s) tempDocId = true := by
  obtain ⟨zs, hshape⟩ := modelKey_placeholder_shape s hk hid
  have hgid : get_id (some (modelKey s)) = some tempDocId := by
    rw [hshape]
    exact get_id_of_suffix zs tempDocId splitSlash_tempDocId
  have hto : to_dict s = .ok (dictSet
      (dictSet d (idAttrName s.meta) (Value.str tempDocId)) "key"
      (Value.str (modelKey s))) := by
    unfold to_dict
    rw [hdb]
    dsimp only
    rw [hgid]
  refine ⟨_, hto, ?_, ?_, ?_⟩
  · rw [dictLookup_dictSet_ne _ "key" (idAttrName s.meta) _ hname]
    exact dictLookup_dictSet_self d (idAttrName s.meta) (Value.str tempDocId)
  · exact dictLookup_dictSet_self _ "key" (Value.str (modelKey s))
  · rw [hshape, show zs ++ '/' :: tempDocId = (zs ++ ['/']) ++ tempDocId by simp]
    exact strContains_suffix (zs ++ ['/']) tempDocId

theorem C10_witness :
    ∃ out, to_dict c10state = .ok out ∧
      dictLookup out (idAttrName c10state.meta) = some (Value.str tempDocId) ∧
      dictLookup out "key" = some (Value.str (modelKey c10state)) ∧
      strContains (modelKey c10state) tempDocId = true :=
  C10_to_dict_placeholder c10state [] rfl rfl (by decide) rfl

def c1meta : Meta :=
  { fieldList := [plainField "x" "x"], idField := Option.none, ignoreNoneField := true }

def c1state : ModelState := mkState c1meta [("x", Value.int 5)] ["x"]

/-- C1 counterexample: passing a placeholder-bearing key explicitly to
`update()` raises nothing — both branches of the key check are skipped and
the update is forwarded to the persistence manager with the changed
fields. -/
theorem C1_counterexample :
    strContains "user/@temp_doc_id".data tempDocId = true ∧
    update c1state (some "user/@temp_doc_id".data) =
      .ok ⟨{ c1state with updateDoc := some "user/@temp_doc_id".data },
        [("x", Value.int 5)]⟩ :=
  ⟨by decide, rfl⟩

/-- C1 (corrected): `update()` raises the invalid-key error exactly when the
effective update-doc key (the truthy explicit argument, else the stored
update-doc) is absent and the instance's own computed key contains the
placeholder; an explicit or previously stored update-doc key containing the
placeholder does not raise — the derivation branches are skipped and the
update is still forwarded. -/
theorem C1_update_invalid_key_iff (s : ModelState) (k? : Option Str) :
    isErr (update s k?) = true ↔
      (effUpdateDoc s k? = Option.none ∧ strContains (modelKey s) tempDocId = true) := by
  cases k? with
  | none =>
    cases hud : s.updateDoc with
    | none =>
      cases hc : strContains (modelKey s) tempDocId with
      | true => simp [update, effUpdateDoc, isErr, hud, hc]
      | false => simp [update, effUpdateDoc, isErr, hud, hc]
    | some ud =>
      cases hc : strContains ud tempDocId with
      | true => simp [update, effUpdateDoc, isErr, hud, hc]
      | false => simp [update, effUpdateDoc, isErr, hud, hc]
  | some k =>
    cases hke : k.isEmpty with
    | true =>
      cases hud : s.updateDoc with
      | none =>
        cases hc : strContains (modelKey s) tempDocId with
        | true => simp [update, effUpdateDoc, isErr, hud, hc, hke]
        | false => simp [update, effUpdateDoc, isErr, hud, hc, hke]
      | some ud =>
        cases hc : strContains ud tempDocId with
        | true => simp [update, effUpdateDoc, isErr, hud, hc, hke]
        | false => simp [update, effUpdateDoc, isErr, hud, hc, hke]
    | false =>
      cases hc : strContains k tempDocId with
      | true => simp [update, effUpdateDoc, isErr, hke, hc]
      | false => simp [update, effUpdateDoc, isErr, hke, hc]

/-- C6 (confirmed): serializing with default flags, hydrating from the
result, and serializing again yields the same storage dictionary, provided
storage column names are distinct, every coercion succeeds, `field_value`
inverts `get_value` on the produced values, and no field is omitted for
being null. -/
theorem C6_roundtrip (s : ModelState) (w : FieldDesc → Value)
    (hnodupC : (s.meta.fieldList.map (fun f => f.dbColumnName)).Nodup)
    (hok : ∀ f ∈ s.meta.fieldList,
      f.getValue (getattr s f.name) false false false = .ok (w f))
    (hinv : ∀ f ∈ s.meta.fieldList, f.fieldValue (w f) = getattr s f.name)
    (hnn : ∀ f ∈ s.meta.fieldList,
      (w f).isNone = false ∨ s.meta.ignoreNoneField = false) :
    ∃ D, to_db_dict s false false false = .ok D ∧
      to_db_dict (populate_from_doc_dict s D) false false false = .ok D := by
  have hD : to_db_dict s false false false =
      .ok (s.meta.fieldList.map (fun f => (f.dbColumnName, w f))) := by
    have h := toDbDictFrom_all s w s.meta.fieldList [] hok hnn (fun f _ => rfl) hnodupC
    simpa [to_db_dict] using h
  have hdoc : ∀ kv ∈ s.meta.fieldList.map (fun f => (f.dbColumnName, w f)), ∀ f,
      getFieldByColumnName s.meta kv.1 = some f → f.fieldValue kv.2 = getattr s f.name := by
    intro kv hkv f hf
    obtain ⟨g, hg, hkv'⟩ := List.mem_map.mp hkv
    subst hkv'
    have hfind : getFieldByColumnName s.meta g.dbColumnName = some g := by
      unfold getFieldByColumnName
      exact find?_col_self s.meta.fieldList g hnodupC hg
    simp only at hf
    rw [hfind] at hf
    rcases Option.some.inj hf with rfl
    exact hinv _ hg
  refine ⟨s.meta.fieldList.map (fun f => (f.dbColumnName, w f)), hD, ?_⟩
  have hattr := populateFrom_getattr (s.meta.fieldList.map (fun f => (f.dbColumnName, w f)))
    s hdoc
  have hmeta := populateFrom_meta (s.meta.fieldList.map (fun f => (f.dbColumnName, w f))) s
  have hchanged := populateFrom_fieldChanged
    (s.meta.fieldList.map (fun f => (f.dbColumnName, w f))) s
  have hcong := toDbDictFrom_congr
    (populateFrom (s.meta.fieldList.map (fun f => (f.dbColumnName, w f))) s) s
    false false false hmeta hchanged hattr s.meta.fieldList []
  show to_db_dict (populateFrom (s.meta.fieldList.map (fun f => (f.dbColumnName, w f))) s)
    false false false = _
  unfold to_db_dict
  rw [hmeta, hcong]
  exact hD

def c6meta : Meta :=
  { fieldList := [plainField "x" "x"], idField := Option.none, ignoreNoneField := true }

def c6state : ModelState := mkState c6meta [("x", Value.int 5)] []

theorem C6_witness :
    ∃ D, to_db_dict c6state false false false = .ok D ∧
      to_db_dict (populate_from_doc_dict c6state D) false false false = .ok D :=
  C6_roundtrip c6state (fun _ => Value.int 5)
    (by decide)
    (by
      intro f hf
      rcases List.mem_singleton.mp hf with rfl
      rfl)
    (by
      intro f hf
      rcases List.mem_singleton.mp hf with rfl
      rfl)
    (by
      intro f hf
      exact Or.inl rfl)

/-- The cited path-builder example: `get_id` and `get_parent_doc` on
`"org/acme/user/u1"`. -/
theorem get_id_get_parent_doc_example :
    get_id (some "org/acme/user/u1".data) = some "u1".data ∧
    get_parent_doc "org/acme/user/u1".data = "org/acme".data := by
  constructor <;> decide

end FireO
